import Mathlib

/-!
Verification of the parallel-search scheduler of Stockfish (thread.h).

The repository provides the header `thread.h` with the data model (constants,
`Spinlock`, `SplitPoint`, `Thread`, `MainThread`, `ThreadPool`) and inline
member definitions. Member functions only declared in the header
(`Thread::split`, `Thread::can_join`, `ThreadPool::available_slave`,
`ThreadPool::max_slaves_per_splitpoint`, the idle loops) are modelled from
the specification; each such definition carries a doc comment starting
`Modelled from the spec:`.
-/

namespace Stockfish

/-! ## Constants, from thread.h lines 39-41 -/

def MAX_THREADS : Nat := 128

def MAX_SPLITPOINTS_PER_THREAD : Nat := 8

def MAX_SLAVES_PER_SPLITPOINT : Nat := 7

/-! ## Spinlock, from thread.h lines 43-55

`lock` is an atomic int, initialized to 1 (free).  `acquire()` does
`fetch_sub(1)` and succeeds when the old value was 1; otherwise it spins on
`load() <= 0` before retrying.  `release()` stores 1.  We model the
single-thread semantics (no concurrent writer): the state is the counter
value, `fetch_sub` is exact integer subtraction, and the unbounded spin loops
are given fuel; `none` models divergence of the spin (which, with no
concurrent release, is what the C++ loop does when the gate is not free). -/

structure Spinlock where
  lock : Int
deriving DecidableEq, Repr

/-- `Spinlock() { lock = 1; }` -/
def Spinlock.init : Spinlock := ⟨1⟩

/-- The gate is free when the counter reads 1. -/
def Spinlock.isFree (s : Spinlock) : Prop := s.lock = 1

/-- The gate is held when the counter is at most 0 (a successful
`fetch_sub` from the free state leaves 0; further contenders only lower it). -/
def Spinlock.isHeld (s : Spinlock) : Prop := s.lock ≤ 0

/-- `acquire()`: each outer iteration performs `fetch_sub(1, acquire)`; the
old value 1 means the gate was claimed.  Otherwise the inner loop spins while
`load() <= 0`; absent a concurrent `release`, the counter never changes, so
the spin exits only if the decremented counter is still positive, and
otherwise diverges (`none`). -/
def Spinlock.acquireAux : Nat → Spinlock → Option Spinlock
  | 0, _ => none
  | Nat.succ fuel, s =>
      if s.lock = 1 then some ⟨s.lock - 1⟩
      else if s.lock - 1 > 0 then Spinlock.acquireAux fuel ⟨s.lock - 1⟩
      else none

/-- `release() { lock.store(1, release); }` -/
def Spinlock.release (_s : Spinlock) : Spinlock := ⟨1⟩

end Stockfish

namespace Stockfish

/-- C8: Starting from the free state, `acquire()` terminates (in one
fetch_sub, for any positive fuel) and leaves the gate held; a subsequent
`release()` restores exactly the initial free state (round-trip identity). -/
theorem spinlock_acquire_release_roundtrip (fuel : Nat) (h : 0 < fuel) :
    ∃ s : Spinlock, Spinlock.acquireAux fuel Spinlock.init = some s ∧
      s.isHeld ∧ ¬ s.isFree ∧ s.release = Spinlock.init := by
  obtain ⟨n, rfl⟩ : ∃ n, fuel = n + 1 := ⟨fuel - 1, by omega⟩
  refine ⟨⟨0⟩, ?_, ?_, ?_, ?_⟩
  · simp [Spinlock.acquireAux, Spinlock.init]
  · simp [Spinlock.isHeld]
  · simp [Spinlock.isFree]
  · rfl

/-- Witness for C8 at fuel 1. -/
theorem spinlock_acquire_release_roundtrip_witness :
    0 < 1 ∧ ∃ s : Spinlock, Spinlock.acquireAux 1 Spinlock.init = some s ∧
      s.isHeld ∧ ¬ s.isFree ∧ s.release = Spinlock.init :=
  ⟨Nat.one_pos, spinlock_acquire_release_roundtrip 1 Nat.one_pos⟩

/-! ## Pool parallelism policy

`ThreadPool::max_slaves_per_splitpoint` is declared at thread.h line 169 but
its body is not in the repository sources. -/

/-- Modelled from the spec: `ThreadPool::max_slaves_per_splitpoint(depth)`
(body missing from the sources) "returns a smaller cap for shallow remaining
depth and a larger cap near the root", a monotone-in-depth policy bounded by
`MAX_SLAVES_PER_SPLITPOINT` (thread.h line 41).  Depth is in plies; the
shallow threshold and shallow cap are representative configurable values. -/
def max_slaves_per_splitpoint (depth : Nat) : Nat :=
  if depth < 8 then 4 else MAX_SLAVES_PER_SPLITPOINT

/-- Modelled from the spec: the recruitment loop of `split()` step 3 —
"repeatedly ask the Pool for an available slave until none can be recruited
or an adaptive slave cap is reached".  `idle` is how many eligible idle
workers the pool can still supply, `cap` how many more slaves the cap
admits; the result is the number of slaves recruited. -/
def recruitSlaves : Nat → Nat → Nat
  | 0, _ => 0
  | _ + 1, 0 => 0
  | idle + 1, cap + 1 => recruitSlaves idle cap + 1

theorem recruitSlaves_eq_min (idle cap : Nat) :
    recruitSlaves idle cap = min idle cap := by
  induction idle generalizing cap with
  | zero => simp [recruitSlaves]
  | succ i ih =>
      cases cap with
      | zero => simp [recruitSlaves]
      | succ c => rw [recruitSlaves, ih]; omega

/-- C7: at a depth at or above the minimum split depth, the recruitment loop
recruits exactly `min idle (max_slaves_per_splitpoint depth)` slaves, and
once the cap is reached recruiting stops even if more workers are idle. -/
theorem split_recruits_min_of_idle_and_cap (minimumSplitDepth depth idle : Nat)
    (h : minimumSplitDepth ≤ depth) :
    recruitSlaves idle (max_slaves_per_splitpoint depth)
        = min idle (max_slaves_per_splitpoint depth) ∧
    ∀ extra : Nat,
      recruitSlaves (max_slaves_per_splitpoint depth + extra)
          (max_slaves_per_splitpoint depth)
        = max_slaves_per_splitpoint depth := by
  refine ⟨recruitSlaves_eq_min _ _, fun extra => ?_⟩
  rw [recruitSlaves_eq_min]
  omega

/-- Witness for C7: minimum split depth 4, depth 10 (cap 7), 4 idle workers
recruit min 4 7 = 4 slaves; with 7 + 3 idle workers recruiting stops at 7. -/
theorem split_recruits_min_of_idle_and_cap_witness :
    (4 ≤ 10 ∧
      recruitSlaves 4 (max_slaves_per_splitpoint 10)
          = min 4 (max_slaves_per_splitpoint 10) ∧
      recruitSlaves (max_slaves_per_splitpoint 10 + 3)
          (max_slaves_per_splitpoint 10)
        = max_slaves_per_splitpoint 10) ∧
    recruitSlaves 4 (max_slaves_per_splitpoint 10) = 4 := by
  have h := split_recruits_min_of_idle_and_cap 4 10 4 (by decide)
  exact ⟨⟨by decide, h.1, h.2 3⟩, by decide⟩

/-- C9: the slave cap is monotone non-decreasing in remaining depth. -/
theorem max_slaves_per_splitpoint_monotone (d1 d2 : Nat) (h : d1 ≤ d2) :
    max_slaves_per_splitpoint d1 ≤ max_slaves_per_splitpoint d2 := by
  unfold max_slaves_per_splitpoint MAX_SLAVES_PER_SPLITPOINT
  split <;> split <;> omega

/-- Witness for C9 at depths 3 ≤ 12. -/
theorem max_slaves_per_splitpoint_monotone_witness :
    (3 ≤ 12 ∧ max_slaves_per_splitpoint 3 ≤ max_slaves_per_splitpoint 12) ∧
    max_slaves_per_splitpoint 3 = 4 ∧ max_slaves_per_splitpoint 12 = 7 :=
  ⟨⟨by decide, max_slaves_per_splitpoint_monotone 3 12 (by decide)⟩,
    by decide, by decide⟩

/-! ## Split-point ancestor chains and `Thread::can_join`

`SplitPoint::parentSplitPoint` (thread.h line 74) links each split point to
its parent, null at a root-level split; the chain is modelled as an
inductive tree node.  `Thread::can_join` is declared at thread.h line 116;
its body is not in the repository sources. -/

/-- A split point, for ancestor-chain purposes: its parent chain (none at a
root-level split) and its master's worker index. -/
inductive SPNode where
  | root (masterIdx : Nat) : SPNode
  | child (parentSplitPoint : SPNode) (masterIdx : Nat) : SPNode
deriving DecidableEq, Repr

/-- Whether `target` occurs on the `parentSplitPoint` chain that starts at
`n` (inclusive of `n` itself). -/
def onAncestorChain (target : SPNode) : SPNode → Bool
  | SPNode.root m => decide (SPNode.root m = target)
  | SPNode.child p m => decide (SPNode.child p m = target) || onAncestorChain target p

/-- The worker-local fields of `Thread` that `can_join` consults
(thread.h lines 131-133). -/
structure ThreadJoinState where
  searching : Bool
  splitPointsSize : Nat
  activeSplitPoint : Option SPNode
deriving DecidableEq, Repr

/-- Whether `sp` lies on the ancestor chain starting at the worker's
currently active split point (false when the worker has none). -/
def ThreadJoinState.chainHas (t : ThreadJoinState) (sp : SPNode) : Bool :=
  match t.activeSplitPoint with
  | none => false
  | some a => onAncestorChain sp a

/-- Modelled from the spec: `Thread::can_join(sp)` (body missing from the
sources) — an idle worker is eligible to join a different split point only
if the target "not be an ancestor of the worker's own currently active split
point" and it has split-stack capacity; a worker still searching is not
idle and cannot be recruited. -/
def can_join (t : ThreadJoinState) (sp : SPNode) : Bool :=
  !t.searching
    && decide (t.splitPointsSize < MAX_SPLITPOINTS_PER_THREAD)
    && !(t.chainHas sp)

/-- C3: whenever `sp` lies on the ancestor chain starting at the worker's
currently active split point, `can_join` returns false. -/
theorem can_join_rejects_ancestor (t : ThreadJoinState) (sp : SPNode)
    (h : t.chainHas sp = true) : can_join t sp = false := by
  simp [can_join, h]

/-- Witness for C3: a worker whose active split point is a child of `sp`
may not join `sp`, even though it is idle and has capacity. -/
theorem can_join_rejects_ancestor_witness :
    (ThreadJoinState.mk false 2
        (some (SPNode.child (SPNode.root 0) 1))).chainHas (SPNode.root 0) = true ∧
    can_join
      (ThreadJoinState.mk false 2 (some (SPNode.child (SPNode.root 0) 1)))
      (SPNode.root 0) = false :=
  ⟨by decide,
    can_join_rejects_ancestor
      (ThreadJoinState.mk false 2 (some (SPNode.child (SPNode.root 0) 1)))
      (SPNode.root 0) (by decide)⟩

/-! ## Shared best-value updates under the split-point lock

`SplitPoint`'s shared mutable fields (thread.h lines 76-85): `alpha`,
`bestValue`, `bestMove`, `cutoff`, guarded by the split point's spinlock. -/

/-- The shared mutable result fields of a `SplitPoint`. -/
structure SPShared where
  beta : Int
  bestValue : Int
  bestMove : Option Nat
  cutoff : Bool
deriving DecidableEq, Repr

/-- Modelled from the spec: a lock-protected update of a split point's
shared outputs by a participant that finished evaluating move `m` with
value `v` — search maximizes within the window, so `bestValue` takes the
maximum, `bestMove` follows a strict improvement, and reaching `beta` flags
a cutoff; once `cutoff` is set, no further updates are meaningful. -/
def spUpdate (sp : SPShared) (m : Nat) (v : Int) : SPShared :=
  if sp.cutoff then sp
  else
    { beta := sp.beta
      bestValue := max sp.bestValue v
      bestMove := if v > sp.bestValue then some m else sp.bestMove
      cutoff := decide (max sp.bestValue v ≥ sp.beta) }

/-- A sequence of lock-protected updates, applied in lock order. -/
def applyUpdates (sp : SPShared) (us : List (Nat × Int)) : SPShared :=
  us.foldl (fun s u => spUpdate s u.1 u.2) sp

theorem spUpdate_bestValue_le (sp : SPShared) (m : Nat) (v : Int) :
    sp.bestValue ≤ (spUpdate sp m v).bestValue := by
  unfold spUpdate
  split
  · exact le_refl _
  · exact le_max_left _ _

/-- C4: across any sequence of successive lock-protected updates (in
particular all those before the cutoff flag is set), a split point's
`bestValue` never decreases. -/
theorem bestValue_monotone (sp : SPShared) (us rest : List (Nat × Int)) :
    (applyUpdates sp us).bestValue ≤ (applyUpdates sp (us ++ rest)).bestValue := by
  rw [applyUpdates, applyUpdates, List.foldl_append]
  generalize us.foldl (fun s u => spUpdate s u.1 u.2) sp = sp1
  induction rest generalizing sp1 with
  | nil => exact le_refl _
  | cons u tl ih =>
      exact le_trans (spUpdate_bestValue_le sp1 u.1 u.2) (ih (spUpdate sp1 u.1 u.2))

/-! ## `Thread::split`: slot allocation, search, release

`Thread::split` is declared at thread.h lines 118-119; `splitPoints`
(a fixed array of `MAX_SPLITPOINTS_PER_THREAD` slots used as a stack),
`activeSplitPoint` and `splitPointsSize` at lines 121 and 131-132.  The
body of `split` is not in the repository sources and is modelled from the
spec's six steps.  Moves are abstract `Nat` identifiers and the external
recursive search is an oracle `valueOf : Nat → Int`. -/

/-- The split-stack fields of a `Thread` affected by `split()`: the index of
the currently active split-point slot (none when not inside a split
subtree) and the number of slots in use. -/
structure ThreadS where
  activeSplitPoint : Option Nat
  splitPointsSize : Nat
deriving DecidableEq, Repr

/-- The best-so-far update applied when a move `m` is found to have value
`v`: a strict improvement replaces both the best value and the best move. -/
def updBest (valueOf : Nat → Int) (best : Int × Option Nat) (m : Nat) :
    Int × Option Nat :=
  if valueOf m > best.1 then (valueOf m, some m) else best

/-- A straight (non-parallel) search of a subtree's move list, folding the
best-so-far through the moves in move-picker order from `(alpha, none)`. -/
def searchLoop (valueOf : Nat → Int) (best : Int × Option Nat)
    (moves : List Nat) : Int × Option Nat :=
  moves.foldl (updBest valueOf) best

/-- Modelled from the spec: `split()` step 1 — "allocate the next free
split-point slot in the calling worker's stack; fail-fast ... if the
per-worker slot capacity is exceeded" (`none` models the fail-fast
invariant violation).  The new slot becomes the worker's currently active
split point. -/
def allocSlot (t : ThreadS) : Option (ThreadS × Nat) :=
  if t.splitPointsSize < MAX_SPLITPOINTS_PER_THREAD then
    some (ThreadS.mk (some t.splitPointsSize) (t.splitPointsSize + 1),
          t.splitPointsSize)
  else none

/-- Modelled from the spec: `split()` step 6 — the master "frees the slot,
clears its currently-active pointer", restoring it to the enclosing split
point recorded as the new split point's parent at setup (the pre-call
value, none for a root-level split). -/
def freeSlot (t : ThreadS) (parent : Option Nat) : ThreadS :=
  ThreadS.mk parent (t.splitPointsSize - 1)

/-- Modelled from the spec: `Thread::split` (body missing from the sources)
— allocate a slot, populate it (the parent pointer snapshots the caller's
active split point), let master and recruited slaves search the subtree
(their lock-ordered updates aggregate to the fold over the move list),
release the slot, and return the aggregated `bestValue`/`bestMove`/node
count to the caller. -/
def split (t : ThreadS) (valueOf : Nat → Int) (moves : List Nat)
    (alpha : Int) : Option (ThreadS × (Int × Option Nat) × Nat) :=
  match allocSlot t with
  | none => none
  | some (t1, _slot) =>
      some (freeSlot t1 t.activeSplitPoint,
            searchLoop valueOf (alpha, none) moves,
            moves.length)

/-- C5: the per-worker split stack holds `MAX_SPLITPOINTS_PER_THREAD = 8`
slots; below capacity, `split()` allocates exactly the next free slot
(index `splitPointsSize`), and at or past capacity the allocation branch is
the fail-fast invariant violation, never a recoverable path. -/
theorem split_stack_capacity (t : ThreadS)
    (h : t.splitPointsSize < MAX_SPLITPOINTS_PER_THREAD) :
    MAX_SPLITPOINTS_PER_THREAD = 8 ∧
    allocSlot t
      = some (ThreadS.mk (some t.splitPointsSize) (t.splitPointsSize + 1),
              t.splitPointsSize) ∧
    ∀ t2 : ThreadS, MAX_SPLITPOINTS_PER_THREAD ≤ t2.splitPointsSize →
      allocSlot t2 = none := by
  refine ⟨rfl, ?_, ?_⟩
  · simp [allocSlot, h]
  · intro t2 h2
    simp [allocSlot]
    omega

/-- Witness for C5: allocation succeeds at size 3 (slot 3) and fails at
size 8. -/
theorem split_stack_capacity_witness :
    (ThreadS.mk (some 1) 3).splitPointsSize < MAX_SPLITPOINTS_PER_THREAD ∧
    (MAX_SPLITPOINTS_PER_THREAD = 8 ∧
      allocSlot (ThreadS.mk (some 1) 3) = some (ThreadS.mk (some 3) 4, 3) ∧
      allocSlot (ThreadS.mk (some 1) 8) = none) := by
  have h := split_stack_capacity (ThreadS.mk (some 1) 3) (by decide)
  exact ⟨by decide, h.1, h.2.1, h.2.2 (ThreadS.mk (some 1) 8) (by decide)⟩

/-- Counterexample to C2 as stated: for a nested call — the caller already
has an active split point — `split()` returns with the caller's
active-split-point pointer restored to that enclosing split point, not
null. -/
theorem split_active_not_null_counterexample :
    split (ThreadS.mk (some 0) 1) (fun m => (m : Int)) [2] 0
      = some (ThreadS.mk (some 0) 1, (2, some 2), 1) ∧
    (some 0 : Option Nat) ≠ none := by
  constructor
  · rfl
  · decide

/-- C2 (amended): every `split()` call made below slot capacity returns,
and the allocate-use-release round trip leaves the worker's split-stack
state (active pointer and stack size) identical to its pre-call state —
the active pointer is restored to its pre-call value, null exactly when
the call was a root-level split — with the aggregated outputs (best value,
best move, node count) returned separately to the caller. -/
theorem split_roundtrip (t : ThreadS) (valueOf : Nat → Int)
    (moves : List Nat) (alpha : Int)
    (h : t.splitPointsSize < MAX_SPLITPOINTS_PER_THREAD) :
    ∃ best nodes, split t valueOf moves alpha = some (t, best, nodes) := by
  refine ⟨searchLoop valueOf (alpha, none) moves, moves.length, ?_⟩
  unfold split allocSlot freeSlot
  simp [h]

/-- Witness for C2 at a root-level call with two moves. -/
theorem split_roundtrip_witness :
    (ThreadS.mk none 0).splitPointsSize < MAX_SPLITPOINTS_PER_THREAD ∧
    ∃ best nodes,
      split (ThreadS.mk none 0) (fun m => (m : Int)) [3, 1] 0
        = some (ThreadS.mk none 0, best, nodes) :=
  ⟨by decide,
    split_roundtrip (ThreadS.mk none 0) (fun m => (m : Int)) [3, 1] 0 (by decide)⟩

/-! ## MainThread's thinking flag

thread.h line 143: `volatile bool thinking = true; // Avoid a race with
start_thinking()` — the member initializer makes the flag true at
construction.  `MainThread::join` and `MainThread::idle_loop` are only
declared in the header. -/

/-- The coordinator state `join` and `start_thinking` observe. -/
structure MainThreadState where
  thinking : Bool
deriving DecidableEq, Repr

/-- A `MainThread` as constructed: `thinking = true` per the member
initializer at thread.h line 143. -/
def mainThreadInit : MainThreadState := MainThreadState.mk true

/-- Modelled from the spec: `MainThread::join` (body missing from the
sources) "blocks the caller until the flag clears" — it cannot return while
`thinking` holds. -/
def joinBlocked (s : MainThreadState) : Bool := s.thinking

/-- Modelled from the spec: the coordinator's idle loop, on completing a
search, "clears the flag". -/
def idleLoopClearThinking (_s : MainThreadState) : MainThreadState :=
  MainThreadState.mk false

/-- C10: a `MainThread` is constructed with `thinking` already true, so a
`join()` issued before the first `start_thinking` blocks, and stops
blocking only once the idle loop first clears the flag. -/
theorem mainThread_constructed_thinking :
    mainThreadInit.thinking = true ∧
    joinBlocked mainThreadInit = true ∧
    joinBlocked (idleLoopClearThinking mainThreadInit) = false := by
  decide

/-! ## The participant-bitset / active-pointer invariant (C1)

`SplitPoint::slavesMask` (thread.h line 78) holds the participating worker
indices of a split point; `Thread::activeSplitPoint` (line 131) is the
worker's currently active split point.  The operations that touch them —
split-point creation, slave recruitment/joining, a slave leaving, and the
master retiring the split point — live in the missing thread.cpp/search.cpp
and are modelled from the spec as events on a pool state.  Split points are
arena ids handed out by a counter, as the spec's design notes direct. -/

/-- The pool-wide state the invariant speaks about: each worker's active
split point, each split point's participant bitset and parent link, and
the arena allocation counter. -/
structure PoolState where
  active : Nat → Option Nat
  slavesMask : Nat → Nat → Bool
  parentOf : Nat → Option Nat
  nextSP : Nat

/-- Startup state: no worker is inside a split subtree and every bitset is
empty. -/
def initPool : PoolState :=
  PoolState.mk (fun _ => none) (fun _ _ => false) (fun _ => none) 0

/-- The observable operations on split-point participation. -/
inductive SPEvent where
  | splitCreate (master : Nat) : SPEvent
  | joinSP (slave : Nat) (spid : Nat) : SPEvent
  | leaveSP (slave : Nat) : SPEvent
  | splitReturn (master : Nat) : SPEvent

/-- Clearing worker `w`'s participant bit in the split point it is
currently active in, if any (the bitset half of moving `w`'s active pointer
elsewhere). -/
def clearActiveBit (s : PoolState) (w : Nat) : Nat → Nat → Bool :=
  fun sp x =>
    match s.active w with
    | some p => if sp = p ∧ x = w then false else s.slavesMask sp x
    | none => s.slavesMask sp x

/-- Modelled from the spec: the event semantics of the split machinery
(bodies missing from the sources).
`splitCreate m`: split() steps 1-3 — the master allocates a fresh split
point whose participant bitset is set to the master alone, records the
master's previous active split point as the parent, and makes the new split
point the master's active one.
`joinSP w spid`: a recruited slave "has its currently-active-split-point
pointer set to this split point" and its participant bit set (under the
lock), its bit in any previously active split point moving with it; only a
published (allocated) split point can be joined.
`leaveSP w`: a slave finishing its share retires from its active split
point — its bit is cleared and its active pointer emptied.
`splitReturn m`: split() step 6 — the master frees the slot and its active
pointer reverts to the parent split point, its participant bit moving back
with it.  Events whose preconditions fail leave the state unchanged. -/
def applyEvent (s : PoolState) : SPEvent → PoolState
  | SPEvent.splitCreate m =>
      PoolState.mk
        (fun x => if x = m then some s.nextSP else s.active x)
        (fun sp x =>
          if sp = s.nextSP then decide (x = m) else clearActiveBit s m sp x)
        (fun sp => if sp = s.nextSP then s.active m else s.parentOf sp)
        (s.nextSP + 1)
  | SPEvent.joinSP w spid =>
      if spid < s.nextSP then
        PoolState.mk
          (fun x => if x = w then some spid else s.active x)
          (fun sp x =>
            if sp = spid ∧ x = w then true else clearActiveBit s w sp x)
          s.parentOf s.nextSP
      else s
  | SPEvent.leaveSP w =>
      match s.active w with
      | some sp0 =>
          PoolState.mk
            (fun x => if x = w then none else s.active x)
            (fun sp x =>
              if sp = sp0 ∧ x = w then false else s.slavesMask sp x)
            s.parentOf s.nextSP
      | none => s
  | SPEvent.splitReturn m =>
      match s.active m with
      | some sp0 =>
          PoolState.mk
            (fun x => if x = m then s.parentOf sp0 else s.active x)
            (fun sp x =>
              match s.parentOf sp0 with
              | some p =>
                  if sp = p ∧ x = m then true
                  else if sp = sp0 ∧ x = m then false else s.slavesMask sp x
              | none =>
                  if sp = sp0 ∧ x = m then false else s.slavesMask sp x)
            s.parentOf s.nextSP
      | none => s

/-- The claimed invariant: a worker's bit is set in a split point's
participant bitset iff that worker's active split point is this split
point. -/
def MaskActiveInv (s : PoolState) : Prop :=
  ∀ sp w, s.slavesMask sp w = true ↔ s.active w = some sp

/-- The inductive strengthening: the claimed invariant, plus that active
pointers and parent links only mention already-allocated arena ids. -/
def PoolInv (s : PoolState) : Prop :=
  MaskActiveInv s ∧
  (∀ w sp, s.active w = some sp → sp < s.nextSP) ∧
  (∀ sp p, s.parentOf sp = some p → p < s.nextSP)

theorem clearActiveBit_eq_true_iff (s : PoolState) (hmask : MaskActiveInv s)
    (m sp x : Nat) :
    clearActiveBit s m sp x = true ↔ (x ≠ m ∧ s.active x = some sp) := by
  unfold clearActiveBit
  cases hact : s.active m with
  | none =>
      rw [hmask]
      constructor
      · intro hx
        refine ⟨?_, hx⟩
        intro hxm
        rw [hxm, hact] at hx
        exact Option.noConfusion hx
      · exact fun hx => hx.2
  | some p =>
      dsimp only
      by_cases hc : sp = p ∧ x = m
      · rw [if_pos hc]
        constructor
        · intro hfalse
          exact Bool.noConfusion hfalse
        · intro hx
          exact absurd hc.2 hx.1
      · rw [if_neg hc, hmask]
        constructor
        · intro hx
          refine ⟨?_, hx⟩
          intro hxm
          rw [hxm, hact] at hx
          obtain rfl : p = sp := Option.some.inj hx
          exact hc ⟨rfl, hxm⟩
        · exact fun hx => hx.2

theorem applyEvent_preserves_inv (s : PoolState) (e : SPEvent)
    (h : PoolInv s) : PoolInv (applyEvent s e) := by
  obtain ⟨hmask, hbound, hpar⟩ := h
  cases e with
  | splitCreate m =>
      refine ⟨?_, ?_, ?_⟩
      · intro sp w
        simp only [applyEvent]
        by_cases hsp : sp = s.nextSP
        · rw [if_pos hsp]
          by_cases hw : w = m
          -- the new split point and the master: bit set, pointer set
          · rw [if_pos hw]
            subst hsp
            subst hw
            simp
          -- the new split point, another worker: its pointer cannot
          -- already name the fresh id, by the allocation bound
          · rw [if_neg hw]
            simp only [decide_eq_true_eq]
            subst hsp
            constructor
            · intro hy
              exact absurd hy hw
            · intro hy
              exact absurd (hbound w _ hy) (lt_irrefl _)
        · rw [if_neg hsp, clearActiveBit_eq_true_iff s hmask]
          by_cases hw : w = m
          -- an old split point and the master: old bit cleared, and the
          -- new pointer names the fresh id, not sp
          · rw [if_pos hw]
            constructor
            · intro hy
              exact absurd hw hy.1
            · intro hy
              exact absurd (Option.some.inj hy).symm hsp
          -- an old split point and another worker: unchanged on both sides
          · rw [if_neg hw]
            exact ⟨fun hy => hy.2, fun hy => ⟨hw, hy⟩⟩
      · intro w sp
        simp only [applyEvent]
        by_cases hw : w = m
        · rw [if_pos hw]
          intro hy
          obtain rfl := Option.some.inj hy
          omega
        · rw [if_neg hw]
          intro hy
          exact Nat.lt_succ_of_lt (hbound w sp hy)
      · intro sp p
        simp only [applyEvent]
        by_cases hsp : sp = s.nextSP
        · rw [if_pos hsp]
          intro hy
          exact Nat.lt_succ_of_lt (hbound m p hy)
        · rw [if_neg hsp]
          intro hy
          exact Nat.lt_succ_of_lt (hpar sp p hy)
  | joinSP w spid =>
      by_cases hjoin : spid < s.nextSP
      · refine ⟨?_, ?_, ?_⟩
        · intro sp x
          simp only [applyEvent, if_pos hjoin]
          by_cases hc : sp = spid ∧ x = w
          -- the joined split point and the joining slave: both sides set
          · rw [if_pos hc]
            obtain ⟨rfl, rfl⟩ := hc
            simp
          · rw [if_neg hc, clearActiveBit_eq_true_iff s hmask]
            by_cases hx : x = w
            -- elsewhere, the slave itself: old bit cleared, new pointer
            -- is spid which is not sp here
            · rw [if_pos hx]
              constructor
              · intro hy
                exact absurd hx hy.1
              · intro hy
                obtain rfl := Option.some.inj hy
                exact absurd ⟨rfl, hx⟩ hc
            -- any other worker: unchanged on both sides
            · rw [if_neg hx]
              exact ⟨fun hy => hy.2, fun hy => ⟨hx, hy⟩⟩
        · intro x sp
          simp only [applyEvent, if_pos hjoin]
          by_cases hx : x = w
          · rw [if_pos hx]
            intro hy
            obtain rfl := Option.some.inj hy
            exact hjoin
          · rw [if_neg hx]
            exact hbound x sp
        · intro sp p
          simp only [applyEvent, if_pos hjoin]
          exact hpar sp p
      · simp only [applyEvent, if_neg hjoin]
        exact ⟨hmask, hbound, hpar⟩
  | leaveSP w =>
      cases hact : s.active w with
      | none =>
          simp only [applyEvent, hact]
          exact ⟨hmask, hbound, hpar⟩
      | some sp0 =>
          refine ⟨?_, ?_, ?_⟩
          · intro sp x
            simp only [applyEvent, hact]
            by_cases hc : sp = sp0 ∧ x = w
            -- the left split point and the leaving slave: bit cleared,
            -- pointer emptied
            · rw [if_pos hc]
              obtain ⟨rfl, rfl⟩ := hc
              simp
            · rw [if_neg hc, hmask]
              by_cases hx : x = w
              -- the slave and another split point: bit was already clear
              · rw [if_pos hx]
                subst hx
                rw [hact]
                constructor
                · intro hy
                  obtain rfl := Option.some.inj hy
                  exact absurd ⟨rfl, rfl⟩ hc
                · intro hy
                  exact Option.noConfusion hy
              · rw [if_neg hx]
          · intro x sp
            simp only [applyEvent, hact]
            by_cases hx : x = w
            · rw [if_pos hx]
              intro hy
              exact Option.noConfusion hy
            · rw [if_neg hx]
              exact hbound x sp
          · intro sp p
            simp only [applyEvent, hact]
            exact hpar sp p
  | splitReturn m =>
      cases hact : s.active m with
      | none =>
          simp only [applyEvent, hact]
          exact ⟨hmask, hbound, hpar⟩
      | some sp0 =>
          refine ⟨?_, ?_, ?_⟩
          · intro sp x
            simp only [applyEvent, hact]
            cases hpp : s.parentOf sp0 with
            | none =>
                dsimp only
                by_cases hc : sp = sp0 ∧ x = m
                -- the retired root-level split point and the master: bit
                -- cleared, pointer reverts to none
                · rw [if_pos hc]
                  obtain ⟨rfl, rfl⟩ := hc
                  simp
                · rw [if_neg hc, hmask]
                  by_cases hx : x = m
                  -- the master and an unrelated split point
                  · rw [if_pos hx]
                    subst hx
                    rw [hact]
                    constructor
                    · intro hy
                      obtain rfl := Option.some.inj hy
                      exact absurd ⟨rfl, rfl⟩ hc
                    · intro hy
                      exact Option.noConfusion hy
                  · rw [if_neg hx]
            | some p =>
                dsimp only
                by_cases hc1 : sp = p ∧ x = m
                -- the parent split point and the master: bit re-set,
                -- pointer reverts to the parent
                · rw [if_pos hc1]
                  obtain ⟨rfl, rfl⟩ := hc1
                  simp
                · rw [if_neg hc1]
                  by_cases hc2 : sp = sp0 ∧ x = m
                  -- the retired split point and the master: bit cleared,
                  -- pointer now names the parent, which is not sp here
                  · rw [if_pos hc2]
                    obtain ⟨rfl, rfl⟩ := hc2
                    rw [if_pos rfl]
                    constructor
                    · intro hy
                      exact Bool.noConfusion hy
                    · intro hy
                      obtain rfl := Option.some.inj hy
                      exact absurd ⟨rfl, rfl⟩ hc1
                  · rw [if_neg hc2, hmask]
                    by_cases hx : x = m
                    -- the master and an unrelated split point
                    · rw [if_pos hx]
                      subst hx
                      rw [hact]
                      constructor
                      · intro hy
                        obtain rfl := Option.some.inj hy
                        exact absurd ⟨rfl, rfl⟩ hc2
                      · intro hy
                        obtain rfl := Option.some.inj hy
                        exact absurd ⟨rfl, rfl⟩ hc1
                    · rw [if_neg hx]
          · intro x sp
            simp only [applyEvent, hact]
            by_cases hx : x = m
            · rw [if_pos hx]
              intro hy
              exact hpar sp0 sp hy
            · rw [if_neg hx]
              exact hbound x sp
          · intro sp p
            simp only [applyEvent, hact]
            exact hpar sp p

/-- The pool state after running a sequence of split-machinery events from
startup. -/
def applyTrace (events : List SPEvent) : PoolState :=
  events.foldl applyEvent initPool

theorem foldl_preserves_inv (events : List SPEvent) (s : PoolState)
    (h : PoolInv s) : PoolInv (events.foldl applyEvent s) := by
  induction events generalizing s with
  | nil => exact h
  | cons e tl ih => exact ih (applyEvent s e) (applyEvent_preserves_inv s e h)

theorem initPool_inv : PoolInv initPool := by
  refine ⟨?_, ?_, ?_⟩
  · intro sp w
    simp [initPool]
  · intro w sp hy
    exact Option.noConfusion hy
  · intro sp p hy
    exact Option.noConfusion hy

/-- C1: at every observation point (every state reachable from startup by
the split-machinery events), a worker's bit is set in a split point's
participant bitset iff that worker's active-split-point pointer equals this
split point. -/
theorem slavesMask_iff_activeSplitPoint (events : List SPEvent)
    (sp w : Nat) :
    (applyTrace events).slavesMask sp w = true ↔
      (applyTrace events).active w = some sp :=
  (foldl_preserves_inv events initPool initPool_inv).1 sp w

/-! ## Split-point subtree search with zero idle workers (C6)

Modelled from the spec: each participant repeatedly draws the next move
from the split point's shared move picker (serialized under the split-point
lock) and, on finishing its evaluation, folds its result into the shared
best value/best move under the lock.  The execution is an arbitrary
interleaving of per-participant draw and complete steps; `pending`
holds each participant's drawn-but-unfinished move. -/

/-- A mid-flight state of a split point's subtree search. -/
structure ExecState where
  remaining : List Nat
  pending : List (Option Nat)
  bestValue : Int
  bestMove : Option Nat

/-- Modelled from the spec: a single scheduler-chosen step of the parallel
subtree search.  `draw p`: participant `p`, currently without a move, draws
the next move from the shared picker.  `complete p`: participant `p`
finishes evaluating its drawn move at value `valueOf m` and merges it into
the shared best value/best move under the split-point lock. -/
inductive ExecStep (valueOf : Nat → Int) : ExecState → ExecState → Prop where
  | draw (s : ExecState) (p m : Nat) (rest : List Nat)
      (hrem : s.remaining = m :: rest)
      (hpend : s.pending.get? p = some none) :
      ExecStep valueOf s
        (ExecState.mk rest (s.pending.set p (some m)) s.bestValue s.bestMove)
  | complete (s : ExecState) (p m : Nat)
      (hpend : s.pending.get? p = some (some m)) :
      ExecStep valueOf s
        (ExecState.mk s.remaining (s.pending.set p none)
          (updBest valueOf (s.bestValue, s.bestMove) m).1
          (updBest valueOf (s.bestValue, s.bestMove) m).2)

/-- The moves a state still has to account for: the drawn-but-unfinished
move of the sole participant, then the shared picker's remainder. -/
def pendingMoves (s : ExecState) : List Nat :=
  match s.pending.get? 0 with
  | some (some m) => m :: s.remaining
  | _ => s.remaining

theorem execStep_single_preserves (valueOf : Nat → Int) (s s' : ExecState)
    (hlen : s.pending.length = 1) (hstep : ExecStep valueOf s s') :
    s'.pending.length = 1 ∧
      searchLoop valueOf (s.bestValue, s.bestMove) (pendingMoves s)
        = searchLoop valueOf (s'.bestValue, s'.bestMove) (pendingMoves s') := by
  obtain ⟨o, ho⟩ : ∃ o, s.pending = [o] := by
    cases hp : s.pending with
    | nil => rw [hp] at hlen; exact absurd hlen (by simp)
    | cons a tl =>
        rw [hp] at hlen
        simp only [List.length_cons] at hlen
        obtain rfl : tl = [] := List.eq_nil_of_length_eq_zero (by omega)
        exact ⟨a, rfl⟩
  cases hstep with
  | draw p m rest hrem hpend =>
      have hp0 : p = 0 := by
        by_contra hne
        have hge : 1 ≤ p := Nat.one_le_iff_ne_zero.mpr hne
        have : s.pending.get? p = none :=
          List.get?_eq_none.mpr (by rw [hlen]; omega)
        rw [this] at hpend
        exact Option.noConfusion hpend
      subst hp0
      rw [ho] at hpend
      simp only [List.get?] at hpend
      obtain rfl : o = none := Option.some.inj hpend
      constructor
      · simp [ho]
      · simp only [pendingMoves, ho, hrem]
        simp [List.set]
  | complete p m hpend =>
      have hp0 : p = 0 := by
        by_contra hne
        have hge : 1 ≤ p := Nat.one_le_iff_ne_zero.mpr hne
        have : s.pending.get? p = none :=
          List.get?_eq_none.mpr (by rw [hlen]; omega)
        rw [this] at hpend
        exact Option.noConfusion hpend
      subst hp0
      rw [ho] at hpend
      simp only [List.get?] at hpend
      obtain rfl : o = some m := Option.some.inj hpend
      constructor
      · simp [ho]
      · simp only [pendingMoves, ho, List.set]
        simp [searchLoop]

/-- Runs of the scheduler: the reflexive-transitive closure of single
steps. -/
def ExecReaches (valueOf : Nat → Int) : ExecState → ExecState → Prop :=
  Relation.ReflTransGen (ExecStep valueOf)

theorem execReaches_single_preserves (valueOf : Nat → Int) (s f : ExecState)
    (hreach : ExecReaches valueOf s f) (hlen : s.pending.length = 1) :
    f.pending.length = 1 ∧
      searchLoop valueOf (s.bestValue, s.bestMove) (pendingMoves s)
        = searchLoop valueOf (f.bestValue, f.bestMove) (pendingMoves f) := by
  induction hreach with
  | refl => exact ⟨hlen, rfl⟩
  | tail _hab hbc ih =>
      obtain ⟨hlen1, heq1⟩ := ih
      obtain ⟨hlen2, heq2⟩ := execStep_single_preserves valueOf _ _ hlen1 hbc
      exact ⟨hlen2, heq1.trans heq2⟩

/-- A non-parallel search of the subtree: fold the best-so-far through the
whole move list from `(alpha, none)`, in move-picker order.  This is the
specification side of the refinement. -/
def sequentialSearch (valueOf : Nat → Int) (moves : List Nat) (alpha : Int) :
    Int × Option Nat :=
  searchLoop valueOf (alpha, none) moves

/-- The state in which a split-point subtree search starts when `idle`
idle workers were available at the `split()` call: the master plus the
recruited slaves, none holding a move yet, the picker full, the best value
at alpha. -/
def splitStart (idle cap : Nat) (moves : List Nat) (alpha : Int) : ExecState :=
  ExecState.mk moves (List.replicate (recruitSlaves idle cap + 1) none)
    alpha none

/-- C6: with zero idle workers at the `split()` call, the master searches
the entire subtree alone, and any complete run (picker exhausted, no
evaluation in flight) produces exactly the best value and best move of the
non-parallel search of that subtree. -/
theorem split_no_slaves_equals_sequential (valueOf : Nat → Int) (cap : Nat)
    (moves : List Nat) (alpha : Int) (f : ExecState)
    (hreach : ExecReaches valueOf (splitStart 0 cap moves alpha) f)
    (hdone : f.remaining = [] ∧ ∀ o ∈ f.pending, o = none) :
    (f.bestValue, f.bestMove) = sequentialSearch valueOf moves alpha := by
  have hstart : (splitStart 0 cap moves alpha).pending.length = 1 := by
    simp [splitStart, recruitSlaves]
  obtain ⟨hlen, heq⟩ :=
    execReaches_single_preserves valueOf _ f hreach hstart
  obtain ⟨o, ho⟩ : ∃ o, f.pending = [o] := by
    cases hp : f.pending with
    | nil => rw [hp] at hlen; exact absurd hlen (by simp)
    | cons a tl =>
        rw [hp] at hlen
        simp only [List.length_cons] at hlen
        obtain rfl : tl = [] := List.eq_nil_of_length_eq_zero (by omega)
        exact ⟨a, rfl⟩
  have hnone : o = none := hdone.2 o (by rw [ho]; exact List.mem_singleton.mpr rfl)
  subst hnone
  have hpmf : pendingMoves f = [] := by
    simp [pendingMoves, ho, hdone.1]
  have hpms : pendingMoves (splitStart 0 cap moves alpha) = moves := by
    simp [pendingMoves, splitStart, recruitSlaves]
  rw [hpmf, hpms] at heq
  simp only [splitStart] at heq
  rw [sequentialSearch]
  rw [heq]
  simp [searchLoop]

/-- Witness for C6: moves [3, 1] with `valueOf` the identity; the master
draws and completes both moves alone; the run's outcome equals the
sequential search's `(3, some 3)`. -/
theorem split_no_slaves_equals_sequential_witness :
    (ExecReaches (fun m => (m : Int)) (splitStart 0 7 [3, 1] 0)
        (ExecState.mk [] [none] 3 (some 3)) ∧
      ([] : List Nat) = [] ∧
        ∀ o ∈ ([none] : List (Option Nat)), o = none) ∧
    ((3 : Int), some 3)
      = sequentialSearch (fun m => (m : Int)) [3, 1] 0 := by
  have h1 : ExecStep (fun m => (m : Int)) (splitStart 0 7 [3, 1] 0)
      (ExecState.mk [1] [some 3] 0 none) :=
    ExecStep.draw (splitStart 0 7 [3, 1] 0) 0 3 [1] rfl rfl
  have h2 : ExecStep (fun m => (m : Int)) (ExecState.mk [1] [some 3] 0 none)
      (ExecState.mk [1] [none] 3 (some 3)) :=
    ExecStep.complete (ExecState.mk [1] [some 3] 0 none) 0 3 rfl
  have h3 : ExecStep (fun m => (m : Int)) (ExecState.mk [1] [none] 3 (some 3))
      (ExecState.mk [] [some 1] 3 (some 3)) :=
    ExecStep.draw (ExecState.mk [1] [none] 3 (some 3)) 0 1 [] rfl rfl
  have h4 : ExecStep (fun m => (m : Int)) (ExecState.mk [] [some 1] 3 (some 3))
      (ExecState.mk [] [none] 3 (some 3)) :=
    ExecStep.complete (ExecState.mk [] [some 1] 3 (some 3)) 0 1 rfl
  have hreach : ExecReaches (fun m => (m : Int)) (splitStart 0 7 [3, 1] 0)
      (ExecState.mk [] [none] 3 (some 3)) :=
    Relation.ReflTransGen.head h1 (Relation.ReflTransGen.head h2
      (Relation.ReflTransGen.head h3 (Relation.ReflTransGen.single h4)))
  have hdone : (ExecState.mk [] [none] 3 (some 3) : ExecState).remaining = []
      ∧ ∀ o ∈ (ExecState.mk [] [none] 3 (some 3) : ExecState).pending,
          o = none := by
    constructor
    · rfl
    · intro o ho
      simpa using ho
  refine ⟨⟨hreach, hdone.1, hdone.2⟩, ?_⟩
  exact split_no_slaves_equals_sequential (fun m => (m : Int)) 7 [3, 1] 0
    (ExecState.mk [] [none] 3 (some 3)) hreach hdone

end Stockfish
